import Mathlib

/-!
Shallow embedding of the word-model core of the espells spell-checking
engine: the dictionary-entry parser and form generator (`src/dic/word.ts`),
the decomposition hypothesis (`src/lookup/forms.ts`) and the tagged word
handle (`src/lookup/lk-word.ts`).

Strings are modelled by Lean `String` over characters; all inputs of
interest are ASCII, where JavaScript's UTF-16 code-unit indexing and
character indexing coincide.  JavaScript `Set` objects are modelled by
insertion-ordered duplicate-free lists, and JavaScript `Map` objects by
insertion-ordered association lists, since both preserve insertion order
and compare object elements by reference.
-/

namespace Espells

/-- An affix rule as exposed by the (external) `Aff` ruleset: the
applicability predicate against a stem, the strip text, the add text,
the cross-product eligibility bit and the rule's contributed flags.
The same shape serves the `Prefix` and `Suffix` roles of
`src/aff/affix.js` (external to the three source files), modelled from
the spec's required-ruleset surface. -/
structure Affix where
  add : String
  strip : String
  crossproduct : Bool
  flags : List String
  relevant : String → Bool

/-- Replacement pattern, `src/aff/rep-pattern.js` (external): a
`(from, to)` text-substitution pair. -/
structure RepPattern where
  fromText : String
  toText : String
deriving DecidableEq, Repr

/-- The slice of the external `Aff` ruleset consumed by `word.ts`:
prefix and suffix rule tables keyed by flag (`aff.PFX` / `aff.SFX`,
`Map.has`/`Map.get` modelled as an `Option`-valued function) and the
morphology-alias table `aff.AM` (spec: "an ordered, 1-based-indexable
table of component-string sets"; each set is an insertion-ordered
duplicate-free list). -/
structure Aff where
  PFX : String → Option (List Affix)
  SFX : String → Option (List Affix)
  AM : List (List String)

/-- A dictionary entry (`Word` of `src/dic/word.ts`) reduced to the
fields its `forms` generator and the static `flagSets` read: the stem
and the optional flag set (a JavaScript `Set`, insertion-ordered). -/
structure Word where
  stem : String
  flags : Option (List String)

/-- Adding to a JavaScript `Set` (insertion order, no duplicates):
appends the element unless already present. -/
def setAdd (s : List String) (v : String) : List String :=
  if v ∈ s then s else s ++ [v]

/-- JavaScript `Map.set` on an association list from keys to set ids:
an existing key keeps its position and gets the new value, a new key is
appended. -/
def mapSetKey (m : List (String × Nat)) (k : String) (idx : Nat) :
    List (String × Nat) :=
  if m.any (fun kv => kv.1 == k) then
    m.map (fun kv => if kv.1 == k then (k, idx) else kv)
  else m ++ [(k, idx)]

/-- The mutable state the `Word` constructor's data loop threads:
the `data` map (`Map<string, Set<string>>`) represented with one level
of indirection — `dataKeys` maps keys to indices into `dataSets` — so
that the source's aliasing of one `Set` object under two keys (the
retrieved set is mutated in place by `set.add(value)` and then also
stored under `key`) is reproduced exactly; `hasData` records whether
`this.data ??= new Map()` ever ran; `altSpellings` is the entry's
alternate-spellings set; `reps` holds the patterns this constructor
call appended to the ruleset's `aff.REP` collection (`REP.add` always
appends, each `RepPattern` being a fresh object). -/
structure ParseState where
  dataKeys : List (String × Nat)
  dataSets : List (List String)
  hasData : Bool
  altSpellings : List String
  reps : List RepPattern

def ParseState.init : ParseState :=
  { dataKeys := [], dataSets := [], hasData := false
    altSpellings := [], reps := [] }

/-- JavaScript `s.endsWith(t)`: `t` is a suffix of `s`. -/
def jsEndsWith (s t : String) : Bool :=
  t.data.isSuffixOf s.data

/-- JavaScript `s.startsWith(t)`: `t` is a prefix of `s`. -/
def jsStartsWith (s t : String) : Bool :=
  t.data.isPrefixOf s.data

/-- JavaScript `s.slice(0, -n)` for `n ≥ 0` (and `String.prototype`'s
clamping): the string with its last `n` characters removed. -/
def strDropRight (s : String) (n : Nat) : String :=
  ⟨s.data.take (s.data.length - n)⟩

/-- JavaScript `parseInt` on a token already matched against `/^\d+$/`: the token
is non-empty, all digits, read in base ten. -/
def digitsToNat (cs : List Char) : Option Nat :=
  if cs ≠ [] ∧ cs.all (fun c => c.isDigit) then
    some (cs.foldl (fun n c => n * 10 + (c.toNat - 48)) 0)
  else none

/-- Modelled from the spec: `C.SPLIT_DATA_REGEX` (in the external
`constants.ts`) recognises a data token of shape `key:value`; the first
colon separates a non-empty key from a non-empty value. -/
def matchKeyValue (tok : String) : Option (String × String) :=
  let k := tok.data.takeWhile (fun c => c != ':')
  let rest := tok.data.dropWhile (fun c => c != ':')
  match rest with
  | [] => none
  | _ :: v => if k.isEmpty || v.isEmpty then none else some (⟨k⟩, ⟨v⟩)

/-- Splitting at the first occurrence of the two-character arrow `-&gt;`:
`some (before, after)` when the arrow occurs, `none` otherwise. -/
def splitArrow : List Char → Option (List Char × List Char)
  | [] => none
  | '-' :: '>' :: rest => some ([], rest)
  | c :: cs => (splitArrow cs).map (fun ft => (c :: ft.1, ft.2))

/-- The source test `value.includes("-&gt;")`: the arrow occurs in `value`. -/
def containsArrow (v : String) : Bool :=
  (splitArrow v.data).isSome

/-- JavaScript `const [from, to] = value.split("-&gt;")`: `from` is the
text before the first arrow, `to` the text between the first and the
second arrow (or everything after the first arrow when it is the only
one); later pieces are discarded by the destructuring. -/
def jsArrowFromTo (v : String) : String × String :=
  match splitArrow v.data with
  | none => (v, "")
  | some (f, rest) =>
      match splitArrow rest with
      | none => (⟨f⟩, ⟨rest⟩)
      | some (t, _) => (⟨f⟩, ⟨t⟩)

/-- JavaScript `for (const str in s)` over a `Set` object: `for...in`
enumerates an object's enumerable string-keyed *properties*, and a
`Set` stores its elements internally rather than as properties, so the
enumeration is empty for every `Set`.  (The spec's morphology-alias
table holds component-string sets.) -/
def forInKeys (_s : List String) : List String := []

/-- Lines 70–72 of `word.ts`:
`this.data ??= new Map()`;
`const set = this.data.get(value) ?? new Set()`;
`this.data.set(key, set.add(value))`.
Note the retrieval is keyed by `value`: when some key equal to the
value string is already present, its set object is mutated in place and
additionally stored under `key` (aliased); otherwise a fresh one-element
set is allocated and stored under `key`. -/
def dataRecord (st : ParseState) (k v : String) : ParseState :=
  match st.dataKeys.find? (fun kv => kv.1 == v) with
  | some kv =>
      { st with
        hasData := true
        dataSets := st.dataSets.set kv.2 (setAdd (st.dataSets.getD kv.2 []) v)
        dataKeys := mapSetKey st.dataKeys k kv.2 }
  | none =>
      { st with
        hasData := true
        dataSets := st.dataSets ++ [[v]]
        dataKeys := mapSetKey st.dataKeys k st.dataSets.length }

/-- Lines 97–99 of `word.ts` (morphology-alias branch body):
`this.data ??= new Map()`;
`const set = this.data.get(keyvalue) ?? new Set()`;
`this.data.set(keyvalue, set.add(str))` — here both the retrieval and
the store are keyed by the token itself. -/
def dataRecordAlias (st : ParseState) (tok v : String) : ParseState :=
  match st.dataKeys.find? (fun kv => kv.1 == tok) with
  | some kv =>
      { st with
        hasData := true
        dataSets := st.dataSets.set kv.2 (setAdd (st.dataSets.getD kv.2 []) v)
        dataKeys := mapSetKey st.dataKeys tok kv.2 }
  | none =>
      { st with
        hasData := true
        dataSets := st.dataSets ++ [[v]]
        dataKeys := mapSetKey st.dataKeys tok st.dataSets.length }

/-- One iteration of the `Word` constructor's data loop
(`word.ts` lines 63–102) on a single whitespace-delimited token.
The `key:value` branch records the pair in `data` and, when the key is
`"ph"`, dispatches on the value: a trailing `*` registers
`(value minus its last 2 characters, stem minus its last character)`;
an arrow registers the pair around the first arrow (JavaScript
destructuring `[from, to] = value.split("-&gt;")` takes the first two
pieces); otherwise `(value, stem)` is registered and the value joins
the alternate-spellings set.  A purely numeric token that resolves
1-based into `aff.AM` runs `for...in` over the alias set, which
enumerates nothing (`forInKeys`); other tokens are ignored. -/
def processToken (aff : Aff) (stem : String) (st : ParseState)
    (tok : String) : ParseState :=
  match matchKeyValue tok with
  | some (k, v) =>
      let st1 := dataRecord st k v
      if k == "ph" then
        if jsEndsWith v "*" then
          { st1 with
            reps := st1.reps ++ [⟨strDropRight v 2, strDropRight stem 1⟩] }
        else if containsArrow v then
          let ft := jsArrowFromTo v
          { st1 with reps := st1.reps ++ [⟨ft.1, ft.2⟩] }
        else
          { st1 with
            reps := st1.reps ++ [⟨v, stem⟩]
            altSpellings := setAdd st1.altSpellings v }
      else st1
  | none =>
      match digitsToNat tok.data with
      | some n =>
          if 1 ≤ n && n - 1 < aff.AM.length then
            (forInKeys (aff.AM.getD (n - 1) [])).foldl
              (fun st2 str => dataRecordAlias st2 tok str) st
          else st
      | none => st

/-- The `Word` constructor's whole data-segment loop: fold the token
processor over the whitespace-split tokens of the data segment. -/
def parseDataTokens (aff : Aff) (stem : String) (toks : List String) :
    ParseState :=
  toks.foldl (processToken aff stem) ParseState.init

/-- Reading the constructed entry's `data` map at a key:
`word.data?.get(k)`, resolving the set indirection. -/
def dataGet (st : ParseState) (k : String) : Option (List String) :=
  if st.hasData then
    (st.dataKeys.find? (fun kv => kv.1 == k)).map
      (fun kv => st.dataSets.getD kv.2 [])
  else none

/-- Candidate prefixes of `Word.forms` (`word.ts` lines 128–133):
iterate the entry's flags, keep those present in `aff.PFX`, fetch their
rule lists, flatten, and keep the rules whose condition matches the
stem.  `filter(has).map(get)` is fused into `filterMap`. -/
def candPrefixes (aff : Aff) (w : Word) : List Affix :=
  ((w.flags.getD []).filterMap aff.PFX).flatten.filter
    (fun p => p.relevant w.stem)

/-- Candidate suffixes of `Word.forms` (`word.ts` lines 135–140),
analogous to `candPrefixes` over `aff.SFX`. -/
def candSuffixes (aff : Aff) (w : Word) : List Affix :=
  ((w.flags.getD []).filterMap aff.SFX).flatten.filter
    (fun s => s.relevant w.stem)

/-- JavaScript truthiness of the optional `similarTo` argument: an
absent argument and the empty string are both falsy. -/
def simTruthy : Option String → Bool
  | none => false
  | some s => !(s == "")

/-- Suffixes surviving the `similarTo` pruning (`word.ts` 143–145):
`similarTo ? similarTo.endsWith(suffix.add) : true`. -/
def prunedSuffixes (aff : Aff) (w : Word) (similarTo : Option String) :
    List Affix :=
  (candSuffixes aff w).filter
    (fun s => if simTruthy similarTo
              then jsEndsWith (similarTo.getD "") s.add else true)

/-- Prefixes surviving the `similarTo` pruning (`word.ts` 147–149):
`similarTo ? similarTo.startsWith(prefix.add) : true`. -/
def prunedPrefixes (aff : Aff) (w : Word) (similarTo : Option String) :
    List Affix :=
  (candPrefixes aff w).filter
    (fun p => if simTruthy similarTo
              then jsStartsWith (similarTo.getD "") p.add else true)

/-- A suffix-only form (`word.ts` 161–164):
`root = suffix.strip ? stem.slice(0, -strip.length) : stem`, then
`root + suffix.add`.  `stem.take (stem.length - strip.length)` covers
both branches: with an empty strip it is the whole stem, and the
clamped subtraction matches `slice`'s clamping. -/
def suffixForm (stem : String) (s : Affix) : String :=
  (stem.take (stem.length - s.strip.length)) ++ s.add

/-- A prefix-only form (`word.ts` 173–176):
`prefix.add + stem.slice(prefix.strip.length)`. -/
def prefixForm (stem : String) (p : Affix) : String :=
  p.add ++ stem.drop p.strip.length

/-- A crossed form (`word.ts` 166–171):
`root = suffix.strip ? stem.slice(prefix.strip.length, -suffix.strip.length)
: stem.slice(prefix.strip.length)`, then `prefix.add + root + suffix.add`.
`(stem.drop a).take (stem.length - a - b)` covers both branches with
`slice`'s clamping (an inverted or out-of-range window yields the empty
string in both models). -/
def crossForm (stem : String) (p s : Affix) : String :=
  p.add ++
    ((stem.drop p.strip.length).take
      (stem.length - p.strip.length - s.strip.length)) ++ s.add

/-- The cross pairs (`word.ts` 151–159): every (prefix, suffix) pair of
the surviving candidates in which both rules are cross-product
eligible. -/
def crossPairs (pfxs sfxs : List Affix) : List (Affix × Affix) :=
  pfxs.flatMap (fun p =>
    (sfxs.filter (fun s => s.crossproduct && p.crossproduct)).map
      (fun s => (p, s)))

/-- The generator `Word.forms(similarTo?)` (`word.ts` 122–179): the stem first, then
the suffix-only forms, then the crossed forms, then the prefix-only
forms.  Without flags the result is just `[stem]`. -/
def forms (aff : Aff) (w : Word) (similarTo : Option String) :
    List String :=
  match w.flags with
  | none => [w.stem]
  | some _ =>
      let sfxs := prunedSuffixes aff w similarTo
      let pfxs := prunedPrefixes aff w similarTo
      [w.stem]
        ++ sfxs.map (suffixForm w.stem)
        ++ (crossPairs pfxs sfxs).map (fun ps => crossForm w.stem ps.1 ps.2)
        ++ pfxs.map (prefixForm w.stem)

/-- The static utility `Word.flagSets(words)` (`word.ts` 186–188):
`new Set(words.filter(w =&gt; w.flags).map(w =&gt; new Set(w.flags)))`.
Each inner `new Set(...)` is a fresh object and the outer `Set`
compares elements by reference (SameValueZero), so the outer set holds
exactly one element per flagged word, in insertion order — an ordered
list of the flag sets. -/
def flagSets (words : List Word) : List (List String) :=
  (words.filter (fun w => w.flags.isSome)).map (fun w => w.flags.getD [])

/-- Whether an affix rule carries a flag: the `Prefix`/`Suffix.has`
membership test of the external `affix.js`, modelled from the spec
(each rule exposes "its own contributed FlagSet"). -/
def Affix.hasFlag (a : Affix) (f : String) : Bool :=
  a.flags.contains f

/-- The tagged word handle `LKWord` of `src/lookup/lk-word.ts`.  The
`Dic` reference is external to the source files; only its identity is
threaded, so it is carried as an opaque tag. -/
structure LKWord where
  aff : Aff
  dic : Unit
  word : String
  type : Nat
  pos : Option Nat

/-- JavaScript string bracket indexing `s[i]` for an integer index:
`undefined` outside `[0, length)`, the character at `i` inside. -/
def jsStringIndex (s : String) (i : Int) : Option Char :=
  if i < 0 then none else s.toList.get? i.toNat

/-- The accessor `LKWord.at(n)` (`lk-word.ts` 94–97):
`if (n &lt; 0) return this.word[this.word.length + n]; return this.word[n]`.
(`at` is a reserved word in Lean, hence the name `charAt`.) -/
def LKWord.charAt (lk : LKWord) (n : Int) : Option Char :=
  if n < 0 then jsStringIndex lk.word ((lk.word.length : Int) + n)
  else jsStringIndex lk.word n

/-- The decomposition hypothesis `AffixForm` of `src/lookup/forms.ts`:
full text, hypothesized stem, outer and inner affix pair on each side,
and the optionally matched dictionary entry.  The source's `prefix`,
`suffix`, `prefix2`, `suffix2` fields are named `pfx`, `sfx`, `pfx2`,
`sfx2` here. -/
structure AffixForm where
  text : String
  stem : String
  pfx : Option Affix
  sfx : Option Affix
  pfx2 : Option Affix
  sfx2 : Option Affix
  inDictionary : Option Word

/-- The `AffixForm` constructor (`forms.ts` 55–73): the text argument
is a plain string or an `LKWord` whose `word` is extracted; the stem
defaults to the text. -/
def mkAffixForm (text : Sum String LKWord) (stem : Option String)
    (p s p2 s2 : Option Affix) (inDic : Option Word) : AffixForm :=
  match text with
  | .inl t =>
      { text := t, stem := stem.getD t
        pfx := p, sfx := s, pfx2 := p2, sfx2 := s2, inDictionary := inDic }
  | .inr lk =>
      { text := lk.word, stem := stem.getD lk.word
        pfx := p, sfx := s, pfx2 := p2, sfx2 := s2, inDictionary := inDic }

/-- The overrides record accepted by `AffixForm.replace`
(`{ text?, stem? } & AffixFormOpts`). -/
structure ReplaceOpts where
  text : Option (Sum String LKWord)
  stem : Option String
  pfx : Option Affix
  sfx : Option Affix
  pfx2 : Option Affix
  sfx2 : Option Affix
  inDictionary : Option Word

/-- The all-absent overrides record. -/
def ReplaceOpts.none : ReplaceOpts :=
  { text := Option.none, stem := Option.none, pfx := Option.none
    sfx := Option.none, pfx2 := Option.none, sfx2 := Option.none
    inDictionary := Option.none }

/-- The method `AffixForm.replace(opts)` (`forms.ts` 79–87): a new instance built
by the constructor from `opts.x ?? this.x` for every field. -/
def AffixForm.replace (h : AffixForm) (o : ReplaceOpts) : AffixForm :=
  mkAffixForm (o.text.getD (.inl h.text)) (some (o.stem.getD h.stem))
    (o.pfx.orElse (fun _ => h.pfx)) (o.sfx.orElse (fun _ => h.sfx))
    (o.pfx2.orElse (fun _ => h.pfx2)) (o.sfx2.orElse (fun _ => h.sfx2))
    (o.inDictionary.orElse (fun _ => h.inDictionary))

/-- The getter `hasAffixes` (`forms.ts` 90–92): `Boolean(this.suffix || this.prefix)`. -/
def AffixForm.hasAffixes (h : AffixForm) : Bool :=
  h.sfx.isSome || h.pfx.isSome

/-- The method `affixes()` (`forms.ts` 103–107): `[prefix2, prefix, suffix,
suffix2]` filtered to the present entries, in that order. -/
def AffixForm.affixes (h : AffixForm) : List Affix :=
  [h.pfx2, h.pfx, h.sfx, h.sfx2].filterMap id

/-- The method `AffixForm.has(flag)` (`forms.ts` 109–112): false without affixes,
else every affix of `affixes()` must carry the flag. -/
def AffixForm.has (h : AffixForm) (f : String) : Bool :=
  if !h.hasAffixes then false
  else h.affixes.all (fun a => a.hasFlag f)

/-- Ruleset fixture with empty rule tables and no morphology aliases. -/
def affNil : Aff := ⟨fun _ => none, fun _ => none, []⟩

/-- Ruleset fixture whose morphology-alias table has one entry. -/
def affAM1 : Aff := ⟨fun _ => none, fun _ => none, [["sg", "pl"]]⟩

/-- Prefix rule fixture: add `un`, strip nothing, cross-product
eligible, keyed by flag `A`, applicable to every stem. -/
def pfxUn : Affix := ⟨"un", "", true, ["A"], fun _ => true⟩

/-- Suffix rule fixture: add `ly`, strip nothing, cross-product
eligible, keyed by flag `B`, applicable to every stem. -/
def sfxLy : Affix := ⟨"ly", "", true, ["B"], fun _ => true⟩

/-- The `ly` suffix rule with cross-product eligibility withdrawn. -/
def sfxLyNoCross : Affix := ⟨"ly", "", false, ["B"], fun _ => true⟩

/-- Ruleset fixture: flag `A` licenses `pfxUn`, flag `B` licenses `sfxLy`. -/
def affUnLy : Aff :=
  ⟨fun f => if f == "A" then some [pfxUn] else none,
   fun f => if f == "B" then some [sfxLy] else none, []⟩

/-- Ruleset fixture like `affUnLy` but with the cross-product
ineligible `ly` suffix. -/
def affUnLyNoCross : Aff :=
  ⟨fun f => if f == "A" then some [pfxUn] else none,
   fun f => if f == "B" then some [sfxLyNoCross] else none, []⟩

/-- Dictionary entry fixture: stem `cat` flagged `A` and `B`. -/
def wordCat : Word := ⟨"cat", some ["A", "B"]⟩

/-- Two distinct entries carrying equal flag sets. -/
def wordFlagA1 : Word := ⟨"alpha", some ["A"]⟩

/-- Second entry with the same flag set as `wordFlagA1`. -/
def wordFlagA2 : Word := ⟨"beta", some ["A"]⟩

/-- Decomposition-hypothesis fixture with only the outer suffix set. -/
def afOnlySfx : AffixForm := ⟨"catly", "cat", none, some sfxLy, none, none, none⟩

/-- Decomposition-hypothesis fixture with no affixes at all. -/
def afNoAffix : AffixForm := ⟨"cat", "cat", none, none, none, none, none⟩

/-- Decomposition-hypothesis fixture with every field populated. -/
def afFull : AffixForm :=
  ⟨"uncatly", "cat", some pfxUn, some sfxLy, none, none, some wordCat⟩

/-- Overrides record fixture replacing only the stem. -/
def optsStemX : ReplaceOpts := { ReplaceOpts.none with stem := some "x" }

/-- Tagged-word-handle fixture wrapping the three-character word `abc`. -/
def lkAbc : LKWord := ⟨affNil, (), "abc", 0, none⟩

theorem dataRecord_reps (st : ParseState) (k v : String) :
    (dataRecord st k v).reps = st.reps := by
  unfold dataRecord
  cases st.dataKeys.find? (fun kv => kv.1 == v) <;> rfl

theorem dataRecord_altSpellings (st : ParseState) (k v : String) :
    (dataRecord st k v).altSpellings = st.altSpellings := by
  unfold dataRecord
  cases st.dataKeys.find? (fun kv => kv.1 == v) <;> rfl

/-- C1: for a `key:value` data token the constructor is meant to
accumulate `value` under `key`; because line 71 of `word.ts` retrieves
the set keyed by the *value* (`this.data.get(value)`) instead of the
key, a second token of the same key starts a fresh set and the earlier
value is dropped.  Evaluating the loop at the failing input
`foo is:a is:b`: the data map ends as `is ↦ {b}`, not `is ↦ {a, b}`. -/
theorem c1_data_accumulation_eval :
    dataGet (parseDataTokens affNil "foo" ["is:a", "is:b"]) "is" = some ["b"] := by
  decide

/-- C3: a purely numeric data token resolving into the morphology-alias
table is meant to record every component of the alias under the token;
because line 96 of `word.ts` iterates the alias set with `for...in`
(which enumerates an object's properties, of which a `Set` has none)
instead of `for...of`, nothing at all is recorded: at token `1` with
alias table `[{sg, pl}]` the entry ends with no data map. -/
theorem c3_alias_eval :
    (parseDataTokens affAM1 "foo" ["1"]).hasData = false ∧
    dataGet (parseDataTokens affAM1 "foo" ["1"]) "1" = none := by
  decide

/-- C4: a plain `ph:value` token (no trailing wildcard, no arrow)
registers the replacement pattern `(value, stem)` and adds `value` to
the alternate-spellings set; an arrow token `ph:from-&gt;to` registers
`(from, to)` and leaves the alternate-spellings set untouched. -/
theorem c4_ph_plain_and_arrow (aff : Aff) (stem : String) (st : ParseState)
    (tok v f t : String) (hkv : matchKeyValue tok = some ("ph", v))
    (hstar : jsEndsWith v "*" = false) :
    (containsArrow v = false →
        (processToken aff stem st tok).reps = st.reps ++ [⟨v, stem⟩] ∧
        (processToken aff stem st tok).altSpellings
            = setAdd st.altSpellings v) ∧
    (containsArrow v = true → jsArrowFromTo v = (f, t) →
        (processToken aff stem st tok).reps = st.reps ++ [⟨f, t⟩] ∧
        (processToken aff stem st tok).altSpellings = st.altSpellings) := by
  constructor
  · intro harrow
    simp [processToken, hkv, hstar, harrow, dataRecord_reps,
      dataRecord_altSpellings]
  · intro harrow hft
    simp [processToken, hkv, hstar, harrow, hft, dataRecord_reps,
      dataRecord_altSpellings]

/-- C4 witness: the spec's own examples, `ph:wensday` for stem
`wednesday` and `ph:hepi-&gt;happi` for stem `happy`, starting from the
empty constructor state. -/
theorem c4_ph_witness :
    ((processToken affNil "wednesday" ParseState.init "ph:wensday").reps
        = [⟨"wensday", "wednesday"⟩] ∧
     (processToken affNil "wednesday" ParseState.init "ph:wensday").altSpellings
        = ["wensday"]) ∧
    ((processToken affNil "happy" ParseState.init "ph:hepi->happi").reps
        = [⟨"hepi", "happi"⟩] ∧
     (processToken affNil "happy" ParseState.init "ph:hepi->happi").altSpellings
        = []) := by
  have h1 := (c4_ph_plain_and_arrow affNil "wednesday" ParseState.init
    "ph:wensday" "wensday" "" "" (by decide) (by decide)).1 (by decide)
  have h2 := (c4_ph_plain_and_arrow affNil "happy" ParseState.init
    "ph:hepi->happi" "hepi->happi" "hepi" "happi" (by decide) (by decide)).2
    (by decide) (by decide)
  exact ⟨⟨h1.1, h1.2⟩, ⟨h2.1, h2.2⟩⟩

/-- C5: a `ph:` token whose value ends with the wildcard marker
registers exactly one replacement pattern, from the value with its
trailing two characters removed to the stem with its last character
removed, and does not touch the alternate-spellings set. -/
theorem c5_ph_wildcard (aff : Aff) (stem : String) (st : ParseState)
    (tok v : String) (hkv : matchKeyValue tok = some ("ph", v))
    (hstar : jsEndsWith v "*" = true) :
    (processToken aff stem st tok).reps
        = st.reps ++ [⟨strDropRight v 2, strDropRight stem 1⟩] ∧
    (processToken aff stem st tok).altSpellings = st.altSpellings := by
  simp [processToken, hkv, hstar, dataRecord_reps, dataRecord_altSpellings]

/-- C5 witness: `ph:prity*` for stem `pretty` registers exactly
`(prit, prett)` and leaves alternate spellings empty. -/
theorem c5_ph_wildcard_witness :
    (processToken affNil "pretty" ParseState.init "ph:prity*").reps
        = [⟨"prit", "prett"⟩] ∧
    (processToken affNil "pretty" ParseState.init "ph:prity*").altSpellings
        = [] := by
  have h := c5_ph_wildcard affNil "pretty" ParseState.init "ph:prity*"
    "prity*" (by decide) (by decide)
  constructor
  · rw [h.1]; decide
  · rw [h.2]; rfl

/-- C7 counterexample: two distinct entries with equal flag sets
contribute two elements, not one — the inner `new Set(...)` objects are
distinct references, so the outer JavaScript `Set` keeps both and the
result is not duplicate-free. -/
theorem c7_flagSets_counterexample :
    flagSets [wordFlagA1, wordFlagA2] = [["A"], ["A"]] ∧
    ¬ (flagSets [wordFlagA1, wordFlagA2]).Nodup := by
  decide

/-- C7 (amended): `flagSets` contains, membership-wise, exactly the
flag sets of the words that have flags, but contributes one element per
flagged word: duplicate flag sets are not collapsed. -/
theorem c7_flagSets_amended (ws : List Word) :
    (∀ fs, fs ∈ flagSets ws ↔ ∃ w, w ∈ ws ∧ w.flags = some fs) ∧
    (flagSets ws).length = ws.countP (fun w => w.flags.isSome) := by
  constructor
  · intro fs
    constructor
    · intro hmem
      rcases List.mem_map.mp hmem with ⟨w, hw, hfs⟩
      rcases List.mem_filter.mp hw with ⟨hws, hsome⟩
      refine ⟨w, hws, ?_⟩
      cases hflags : w.flags with
      | none => rw [hflags] at hsome; cases hsome
      | some l =>
          rw [hflags] at hfs
          simp only [Option.getD_some] at hfs
          rw [← hfs]
    · rintro ⟨w, hws, hfs⟩
      apply List.mem_map.mpr
      refine ⟨w, List.mem_filter.mpr ⟨hws, by rw [hfs]; rfl⟩, by rw [hfs]; rfl⟩
  · rw [flagSets, List.length_map, List.countP_eq_length_filter]

/-- C8: `AffixForm.has` is false when no affixes are present; when it
returns true every present affix carries the flag; and with only the
outer suffix present it returns exactly that suffix's membership test. -/
theorem c8_affixform_has (h : AffixForm) (f : String) :
    (h.pfx = none → h.sfx = none → h.pfx2 = none → h.sfx2 = none →
        h.has f = false) ∧
    (h.has f = true → ∀ a ∈ h.affixes, a.hasFlag f = true) ∧
    (∀ s, h.pfx = none → h.pfx2 = none → h.sfx2 = none → h.sfx = some s →
        h.has f = s.hasFlag f) := by
  refine ⟨?_, ?_, ?_⟩
  · intro h1 h2 h3 h4
    simp [AffixForm.has, AffixForm.hasAffixes, h1, h2]
  · intro hh a ha
    cases hA : h.hasAffixes with
    | true =>
        simp [AffixForm.has, hA] at hh
        exact hh a ha
    | false => simp [AffixForm.has, hA] at hh
  · intro s h1 h2 h3 h4
    simp [AffixForm.has, AffixForm.hasAffixes, AffixForm.affixes,
      h1, h2, h3, h4]

/-- C8 witness: with only the outer suffix `sfxLy` present, `has`
agrees with that suffix's flag membership, and with no affixes at all
`has` is false. -/
theorem c8_affixform_has_witness :
    afOnlySfx.has "B" = sfxLy.hasFlag "B" ∧
    afNoAffix.has "B" = false := by
  exact ⟨(c8_affixform_has afOnlySfx "B").2.2 sfxLy rfl rfl rfl rfl,
    (c8_affixform_has afNoAffix "B").1 rfl rfl rfl rfl⟩

/-- C9: `replace` builds a new hypothesis in which every overridden
field holds the override value and every field not overridden equals
the original's; the original value itself is never changed (the
embedding is pure, so immutability is inherent and the content is the
field transfer). -/
theorem c9_replace_fields (h : AffixForm) (o : ReplaceOpts) :
    (o.text = Option.none → (h.replace o).text = h.text) ∧
    (∀ s, o.text = some (Sum.inl s) → (h.replace o).text = s) ∧
    (∀ lk, o.text = some (Sum.inr lk) → (h.replace o).text = lk.word) ∧
    (o.stem = Option.none → (h.replace o).stem = h.stem) ∧
    (∀ s, o.stem = some s → (h.replace o).stem = s) ∧
    (o.pfx = Option.none → (h.replace o).pfx = h.pfx) ∧
    (∀ a, o.pfx = some a → (h.replace o).pfx = some a) ∧
    (o.sfx = Option.none → (h.replace o).sfx = h.sfx) ∧
    (∀ a, o.sfx = some a → (h.replace o).sfx = some a) ∧
    (o.pfx2 = Option.none → (h.replace o).pfx2 = h.pfx2) ∧
    (∀ a, o.pfx2 = some a → (h.replace o).pfx2 = some a) ∧
    (o.sfx2 = Option.none → (h.replace o).sfx2 = h.sfx2) ∧
    (∀ a, o.sfx2 = some a → (h.replace o).sfx2 = some a) ∧
    (o.inDictionary = Option.none →
        (h.replace o).inDictionary = h.inDictionary) ∧
    (∀ w, o.inDictionary = some w → (h.replace o).inDictionary = some w) := by
  refine ⟨?_, ?_, ?_, ?_, ?_, ?_, ?_, ?_, ?_, ?_, ?_, ?_, ?_, ?_, ?_⟩ <;>
    (intros
     rcases htext : o.text with _ | sl
     · simp_all [AffixForm.replace, mkAffixForm]
     · rcases sl with s0 | lk0 <;> simp_all [AffixForm.replace, mkAffixForm])

/-- C9 witness: replacing only the stem of `afFull` with `x` yields a
hypothesis whose stem is `x` while text and outer prefix are carried
over unchanged. -/
theorem c9_replace_witness :
    (afFull.replace optsStemX).stem = "x" ∧
    (afFull.replace optsStemX).text = afFull.text ∧
    (afFull.replace optsStemX).pfx = afFull.pfx := by
  have h := c9_replace_fields afFull optsStemX
  exact ⟨h.2.2.2.2.1 "x" rfl, h.1 rfl, h.2.2.2.2.2.1 rfl⟩

/-- C10: `LKWord.at` is total: out-of-range indices (at or beyond the
length, or below the negated length) yield `none`; indices in
`[0, length)` yield the character at that position; indices in
`[-length, 0)` yield the character at `length + n`. -/
theorem c10_charAt_total (lk : LKWord) (n : Int) :
    ((lk.word.length : Int) ≤ n → lk.charAt n = Option.none) ∧
    (n < -(lk.word.length : Int) → lk.charAt n = Option.none) ∧
    (0 ≤ n → n < (lk.word.length : Int) →
        lk.charAt n = lk.word.toList.get? n.toNat ∧
        lk.charAt n ≠ Option.none) ∧
    (-(lk.word.length : Int) ≤ n → n < 0 →
        lk.charAt n
            = lk.word.toList.get? ((lk.word.length : Int) + n).toNat ∧
        lk.charAt n ≠ Option.none) := by
  have hlen : lk.word.toList.length = lk.word.length := rfl
  have hnn : (0 : Int) ≤ (lk.word.length : Int) := Int.ofNat_nonneg _
  refine ⟨?_, ?_, ?_, ?_⟩
  · intro hge
    have hn : ¬ n < 0 := by omega
    simp only [LKWord.charAt, jsStringIndex, if_neg hn]
    apply List.get?_eq_none.mpr
    rw [hlen]
    omega
  · intro hlt
    have hn : n < 0 := by omega
    have hneg : (lk.word.length : Int) + n < 0 := by omega
    simp only [LKWord.charAt, jsStringIndex, if_pos hn, if_pos hneg]
  · intro h0 hlt
    have hn : ¬ n < 0 := by omega
    constructor
    · simp only [LKWord.charAt, jsStringIndex, if_neg hn]
    · simp only [LKWord.charAt, jsStringIndex, if_neg hn]
      intro hcon
      have hle := List.get?_eq_none.mp hcon
      rw [hlen] at hle
      omega
  · intro hge hlt
    have hn2 : ¬ ((lk.word.length : Int) + n < 0) := by omega
    constructor
    · simp only [LKWord.charAt, jsStringIndex, if_pos hlt, if_neg hn2]
    · simp only [LKWord.charAt, jsStringIndex, if_pos hlt, if_neg hn2]
      intro hcon
      have hle := List.get?_eq_none.mp hcon
      rw [hlen] at hle
      omega

/-- C10 witness: on the three-character handle `abc`, indices 1 and -1
return characters, and indices 3 and -4 return `none`. -/
theorem c10_charAt_witness :
    lkAbc.charAt 1 = some 'b' ∧
    lkAbc.charAt (-1) = some 'c' ∧
    lkAbc.charAt 3 = Option.none ∧
    lkAbc.charAt (-4) = Option.none := by
  refine ⟨?_, ?_, ?_, ?_⟩
  · have h := ((c10_charAt_total lkAbc 1).2.2.1 (by decide) (by decide)).1
    rw [h]; decide
  · have h := ((c10_charAt_total lkAbc (-1)).2.2.2 (by decide) (by decide)).1
    rw [h]; decide
  · exact (c10_charAt_total lkAbc 3).1 (by decide)
  · exact (c10_charAt_total lkAbc (-4)).2.1 (by decide)


theorem simTruthy_some {sim : String} (h : sim ≠ "") :
    simTruthy (some sim) = true := by
  simp [simTruthy, h]

theorem prunedSuffixes_none (aff : Aff) (w : Word) :
    prunedSuffixes aff w Option.none = candSuffixes aff w := by
  simp [prunedSuffixes, simTruthy]

theorem prunedPrefixes_none (aff : Aff) (w : Word) :
    prunedPrefixes aff w Option.none = candPrefixes aff w := by
  simp [prunedPrefixes, simTruthy]

theorem prunedSuffixes_some (aff : Aff) (w : Word) {sim : String}
    (h : sim ≠ "") :
    prunedSuffixes aff w (some sim)
      = (candSuffixes aff w).filter (fun s => jsEndsWith sim s.add) := by
  simp [prunedSuffixes, simTruthy_some h]

theorem prunedPrefixes_some (aff : Aff) (w : Word) {sim : String}
    (h : sim ≠ "") :
    prunedPrefixes aff w (some sim)
      = (candPrefixes aff w).filter (fun p => jsStartsWith sim p.add) := by
  simp [prunedPrefixes, simTruthy_some h]

/-- C2: with the candidate lists reduced to one licensed, applicable
prefix and one licensed, applicable suffix, and the crossed string
distinct from the stem and from the single-affix forms, `forms()`
contains the crossed form exactly when both rules are cross-product
eligible, while the single-affix forms are always present. -/
theorem c2_cross_product (aff : Aff) (w : Word) (p s : Affix)
    (hP : candPrefixes aff w = [p]) (hS : candSuffixes aff w = [s])
    (h1 : crossForm w.stem p s ≠ w.stem)
    (h2 : crossForm w.stem p s ≠ suffixForm w.stem s)
    (h3 : crossForm w.stem p s ≠ prefixForm w.stem p) :
    (crossForm w.stem p s ∈ forms aff w Option.none ↔
        (p.crossproduct && s.crossproduct) = true) ∧
    suffixForm w.stem s ∈ forms aff w Option.none ∧
    prefixForm w.stem p ∈ forms aff w Option.none := by
  obtain ⟨stem, fl⟩ := w
  cases fl with
  | none =>
      exfalso
      have hnil : candPrefixes aff ⟨stem, Option.none⟩ = [] := rfl
      rw [hnil] at hP
      cases hP
  | some l =>
      have hsfx : prunedSuffixes aff ⟨stem, some l⟩ Option.none = [s] := by
        rw [prunedSuffixes_none]; exact hS
      have hpfx : prunedPrefixes aff ⟨stem, some l⟩ Option.none = [p] := by
        rw [prunedPrefixes_none]; exact hP
      cases hc : s.crossproduct && p.crossproduct with
      | true =>
          have hx : forms aff ⟨stem, some l⟩ Option.none
              = [stem, suffixForm stem s, crossForm stem p s,
                 prefixForm stem p] := by
            simp [forms, hsfx, hpfx, crossPairs, hc]
          rw [hx]
          refine ⟨⟨fun _ => ?_, fun _ => by simp⟩, by simp, by simp⟩
          rw [Bool.and_comm]
          exact hc
      | false =>
          have hx : forms aff ⟨stem, some l⟩ Option.none
              = [stem, suffixForm stem s, prefixForm stem p] := by
            simp [forms, hsfx, hpfx, crossPairs, hc]
          rw [hx]
          refine ⟨⟨fun hmem => ?_, fun hcc => ?_⟩, by simp, by simp⟩
          · rcases List.mem_cons.mp hmem with h | hmem2
            · exact absurd h h1
            rcases List.mem_cons.mp hmem2 with h | hmem3
            · exact absurd h h2
            rcases List.mem_cons.mp hmem3 with h | hmem4
            · exact absurd h h3
            · cases hmem4
          · rw [Bool.and_comm, hc] at hcc
            cases hcc

/-- C2 witness: for stem `cat` with prefix `un` (cross-product
eligible) and suffix `ly` marked cross-product ineligible, the crossed
form `uncatly` is absent while `catly` and `uncat` are produced. -/
theorem c2_cross_product_witness :
    ("uncatly" ∈ forms affUnLyNoCross wordCat Option.none ↔ False) ∧
    "catly" ∈ forms affUnLyNoCross wordCat Option.none ∧
    "uncat" ∈ forms affUnLyNoCross wordCat Option.none := by
  have h := c2_cross_product affUnLyNoCross wordCat pfxUn sfxLyNoCross
    rfl rfl (by decide) (by decide) (by decide)
  refine ⟨?_, h.2.1, h.2.2⟩
  rw [show ("uncatly" : String)
      = crossForm wordCat.stem pfxUn sfxLyNoCross from by decide]
  refine ⟨fun hmem => absurd (h.1.mp hmem) (by decide), fun hf => hf.elim⟩

/-- C6: with a non-empty `similarTo`, every element of
`forms(similarTo)` is the stem or is built from candidate suffixes
whose add-text ends `similarTo` and candidate prefixes whose add-text
starts it; and every candidate affix passing its test still yields its
single-affix form. -/
theorem c6_similarTo_pruning (aff : Aff) (w : Word) (sim : String)
    (hsim : sim ≠ "") :
    (∀ x ∈ forms aff w (some sim),
        x = w.stem ∨
        (∃ s ∈ candSuffixes aff w, jsEndsWith sim s.add = true ∧
            x = suffixForm w.stem s) ∨
        (∃ p ∈ candPrefixes aff w, ∃ s ∈ candSuffixes aff w,
            jsStartsWith sim p.add = true ∧ jsEndsWith sim s.add = true ∧
            x = crossForm w.stem p s) ∨
        (∃ p ∈ candPrefixes aff w, jsStartsWith sim p.add = true ∧
            x = prefixForm w.stem p)) ∧
    (∀ s ∈ candSuffixes aff w, jsEndsWith sim s.add = true →
        suffixForm w.stem s ∈ forms aff w (some sim)) ∧
    (∀ p ∈ candPrefixes aff w, jsStartsWith sim p.add = true →
        prefixForm w.stem p ∈ forms aff w (some sim)) := by
  obtain ⟨stem, fl⟩ := w
  cases fl with
  | none =>
      refine ⟨?_, ?_, ?_⟩
      · intro x hx
        left
        simpa [forms] using hx
      · intro s hs
        exact absurd hs (by simp [candSuffixes])
      · intro p hp
        exact absurd hp (by simp [candPrefixes])
  | some l =>
      have hS := prunedSuffixes_some aff ⟨stem, some l⟩ hsim
      have hP := prunedPrefixes_some aff ⟨stem, some l⟩ hsim
      refine ⟨?_, ?_, ?_⟩
      · intro x hx
        simp only [forms] at hx
        rcases List.mem_append.mp hx with hx01 | hxpfx
        · rcases List.mem_append.mp hx01 with hx0 | hxcross
          · rcases List.mem_append.mp hx0 with hxstem | hxsfx
            · exact Or.inl (List.mem_singleton.mp hxstem)
            · rw [hS] at hxsfx
              rcases List.mem_map.mp hxsfx with ⟨s, hsf, hxeq⟩
              rcases List.mem_filter.mp hsf with ⟨hs, hends⟩
              exact Or.inr (Or.inl ⟨s, hs, hends, hxeq.symm⟩)
          · rcases List.mem_map.mp hxcross with ⟨ps, hps, hxeq⟩
            rcases List.mem_flatMap.mp hps with ⟨p, hpf, hmap⟩
            rcases List.mem_map.mp hmap with ⟨s, hsf, hpair⟩
            rw [hP] at hpf
            rcases List.mem_filter.mp hpf with ⟨hp, hstarts⟩
            rcases List.mem_filter.mp hsf with ⟨hsf2, _⟩
            rw [hS] at hsf2
            rcases List.mem_filter.mp hsf2 with ⟨hs, hends⟩
            refine Or.inr (Or.inr (Or.inl ⟨p, hp, s, hs, hstarts, hends, ?_⟩))
            rw [← hxeq, ← hpair]
        · rw [hP] at hxpfx
          rcases List.mem_map.mp hxpfx with ⟨p, hpf, hxeq⟩
          rcases List.mem_filter.mp hpf with ⟨hp, hstarts⟩
          exact Or.inr (Or.inr (Or.inr ⟨p, hp, hstarts, hxeq.symm⟩))
      · intro s hs hends
        simp only [forms]
        refine List.mem_append.mpr (Or.inl (List.mem_append.mpr
          (Or.inl (List.mem_append.mpr (Or.inr ?_)))))
        rw [hS]
        exact List.mem_map.mpr ⟨s, List.mem_filter.mpr ⟨hs, hends⟩, rfl⟩
      · intro p hp hstarts
        simp only [forms]
        refine List.mem_append.mpr (Or.inr ?_)
        rw [hP]
        exact List.mem_map.mpr ⟨p, List.mem_filter.mpr ⟨hp, hstarts⟩, rfl⟩

/-- C6 witness: for stem `cat` with prefix `un` and suffix `ly`
available, `forms("uncatly")` retains both single-affix forms, the
suffix add-text `ly` ending and the prefix add-text `un` starting the
argument. -/
theorem c6_similarTo_pruning_witness :
    "catly" ∈ forms affUnLy wordCat (some "uncatly") ∧
    "uncat" ∈ forms affUnLy wordCat (some "uncatly") := by
  have h := c6_similarTo_pruning affUnLy wordCat "uncatly" (by decide)
  constructor
  · rw [show ("catly" : String) = suffixForm wordCat.stem sfxLy from by decide]
    exact h.2.1 sfxLy
      (by rw [show candSuffixes affUnLy wordCat = [sfxLy] from rfl]
          exact List.mem_singleton.mpr rfl)
      (by decide)
  · rw [show ("uncat" : String) = prefixForm wordCat.stem pfxUn from by decide]
    exact h.2.2 pfxUn
      (by rw [show candPrefixes affUnLy wordCat = [pfxUn] from rfl]
          exact List.mem_singleton.mpr rfl)
      (by decide)

end Espells
